import Mathlib

/-!
# Verification of the bank-statement import & reconciliation core

Shallow embedding of the file-import pipeline of this repository.  The
repository source under scrutiny is the test module for file import
(`src/unnamed/part_000`), whose helper `importFileWithRealTime` drives the
pipeline: `parseFile` → per-record normalization (amount/date mapping at its
lines 58–64) → error short-circuit (lines 66–68) → `reconcileTransactions`
(line 70).  The collaborators `parseFile`, `amountToInteger` and
`reconcileTransactions` are code of the repository that is not included under
`src/`; they are modelled from the specification (its §4.1 Normalizer,
§4.2 Import-ID Assigner, §4.3 Reconciliation Engine, §4.4 Format Detector)
as the doc comments below record.
-/

namespace ActualImport

/-! ## Decimal digits and numerals -/

/-- The character for a single decimal digit `d < 10`. -/
def digitChar (d : Nat) : Char := Char.ofNat (48 + d)

/-- Decode a character as a decimal digit, if it is one. -/
def charDigit? (c : Char) : Option Nat :=
  if 48 ≤ c.toNat ∧ c.toNat ≤ 57 then some (c.toNat - 48) else none

/-- Fuel-driven decimal numeral writer (structural recursion on the fuel, so
that concrete evaluation reduces). -/
def natToCharsAux : Nat → Nat → List Char
  | 0, _ => []
  | fuel + 1, n =>
    if n < 10 then [digitChar n]
    else natToCharsAux fuel (n / 10) ++ [digitChar (n % 10)]

/-- Decimal numeral of a natural number, most significant digit first. -/
def natToChars (n : Nat) : List Char := natToCharsAux (n + 1) n

theorem natToCharsAux_fuel :
    ∀ f f' n, n < f → n < f' → natToCharsAux f n = natToCharsAux f' n := by
  intro f
  induction f with
  | zero => intro f' n h; omega
  | succ g ih =>
    intro f' n h h'
    cases f' with
    | zero => omega
    | succ g' =>
      simp only [natToCharsAux]
      split
      · rfl
      · next h10 =>
        have hdiv : n / 10 < n := Nat.div_lt_self (by omega) (by omega)
        rw [ih g' (n / 10) (by omega) (by omega)]

/-- The defining recursion of `natToChars`. -/
theorem natToChars_unfold (n : Nat) : natToChars n
    = if n < 10 then [digitChar n] else natToChars (n / 10) ++ [digitChar (n % 10)] := by
  show natToCharsAux (n + 1) n = _
  rw [natToCharsAux]
  split
  · rfl
  · next h10 =>
    have hdiv : n / 10 < n := Nat.div_lt_self (by omega) (by omega)
    rw [natToCharsAux_fuel n (n / 10 + 1) (n / 10) (by omega) (by omega)]
    rfl

/-- Number of digits of the decimal numeral of `n`. -/
def numDigits (n : Nat) : Nat :=
  if _h : n < 10 then 1 else numDigits (n / 10) + 1
  decreasing_by exact Nat.div_lt_self (by omega) (by omega)

/-- Accumulating decimal parser: consumes characters while they are digits. -/
def parseDigitsAux (acc : Nat) : List Char → Option Nat
  | [] => some acc
  | c :: cs =>
    match charDigit? c with
    | some d => parseDigitsAux (acc * 10 + d) cs
    | none => none

/-- Parse a non-empty all-digit string as a natural number. -/
def parseDigits (l : List Char) : Option Nat :=
  if l.isEmpty then none else parseDigitsAux 0 l

theorem charDigit?_digitChar {d : Nat} (h : d < 10) :
    charDigit? (digitChar d) = some d := by
  interval_cases d <;> decide

theorem digitChar_ne_dot {d : Nat} (h : d < 10) : digitChar d ≠ '.' := by
  interval_cases d <;> decide

theorem natToChars_ne_nil (n : Nat) : natToChars n ≠ [] := by
  rw [natToChars_unfold]
  split <;> simp

theorem natToChars_digits (n : Nat) : ∀ c ∈ natToChars n, ∃ d, d < 10 ∧ c = digitChar d := by
  induction n using Nat.strong_induction_on with
  | _ n ih =>
    rw [natToChars_unfold]
    split
    · intro c hc
      simp only [List.mem_singleton] at hc
      exact ⟨n, by omega, hc⟩
    · intro c hc
      rw [List.mem_append] at hc
      rcases hc with hc | hc
      · exact ih (n / 10) (Nat.div_lt_self (by omega) (by omega)) c hc
      · simp only [List.mem_singleton] at hc
        exact ⟨n % 10, Nat.mod_lt _ (by omega), hc⟩

/-- Key accumulation lemma: parsing the numeral of `n` followed by `rest`,
with accumulator `acc`, yields accumulator `acc * 10 ^ numDigits n + n`. -/
theorem parseDigitsAux_natToChars (n : Nat) : ∀ acc rest,
    parseDigitsAux acc (natToChars n ++ rest)
      = parseDigitsAux (acc * 10 ^ numDigits n + n) rest := by
  induction n using Nat.strong_induction_on with
  | _ n ih =>
    intro acc rest
    rw [natToChars_unfold, numDigits]
    by_cases h : n < 10
    · rw [if_pos h, dif_pos h]
      simp only [List.cons_append, List.nil_append, parseDigitsAux,
        charDigit?_digitChar h, pow_one]
      rfl
    · rw [if_neg h, dif_neg h]
      rw [List.append_assoc, List.cons_append, List.nil_append,
        ih (n / 10) (Nat.div_lt_self (by omega) (by omega)) acc]
      simp only [parseDigitsAux, charDigit?_digitChar (Nat.mod_lt n (by omega) : n % 10 < 10)]
      have : (acc * 10 ^ numDigits (n / 10) + n / 10) * 10 + n % 10
          = acc * 10 ^ (numDigits (n / 10) + 1) + n := by
        rw [pow_succ]
        have := Nat.div_add_mod n 10
        ring_nf
        omega
      rw [this]

/-- Round trip for natural-number numerals. -/
theorem parseDigits_natToChars (n : Nat) : parseDigits (natToChars n) = some n := by
  have h := parseDigitsAux_natToChars n 0 []
  rw [List.append_nil] at h
  have hne : (natToChars n).isEmpty = false := by
    rcases hd : natToChars n with _ | ⟨c, cs⟩
    · exact absurd hd (natToChars_ne_nil _)
    · rfl
  rw [parseDigits, hne]
  simp only [Bool.false_eq_true, if_false, h, zero_mul, zero_add]
  rfl

/-! ## Amounts: decimal strings ↔ integer minor units -/

theorem takeWhile_append_all {p : Char → Bool} {xs : List Char}
    (h : ∀ x ∈ xs, p x = true) (ys : List Char) :
    (xs ++ ys).takeWhile p = xs ++ ys.takeWhile p := by
  induction xs with
  | nil => simp
  | cons c cs ih =>
    simp only [List.cons_append, List.takeWhile_cons, h c (by simp), if_true]
    rw [ih (fun x hx => h x (by simp [hx]))]

theorem dropWhile_append_all {p : Char → Bool} {xs : List Char}
    (h : ∀ x ∈ xs, p x = true) (ys : List Char) :
    (xs ++ ys).dropWhile p = ys.dropWhile p := by
  induction xs with
  | nil => simp
  | cons c cs ih =>
    simp only [List.cons_append, List.dropWhile_cons, h c (by simp), if_true]
    exact ih (fun x hx => h x (by simp [hx]))

/-- Modelled from the spec: `amountToInteger`'s unsigned core (the function
lives in `shared/util`, which is not under `src/`).  Spec §4.1: "parse the
source numeric representation and convert to an integer count of minor units
using a fixed scale (e.g. cents); reject non-numeric ... input"; the scale is
100 minor units, so at most two fraction digits are accepted. -/
def parseUnsignedAmount (cs : List Char) : Option Nat :=
  let ip := cs.takeWhile (fun c => c != '.')
  let rest := cs.dropWhile (fun c => c != '.')
  if rest.isEmpty then (parseDigits ip).map (· * 100)
  else
    let frac := rest.tail
    if frac.length = 1 then
      (parseDigits ip).bind fun i => (parseDigits frac).map fun f => i * 100 + f * 10
    else if frac.length = 2 then
      (parseDigits ip).bind fun i => (parseDigits frac).map fun f => i * 100 + f
    else none

/-- Modelled from the spec: `amountToInteger` on character lists; an optional
leading minus sign negates the unsigned value ("sign = direction", §3). -/
def amountToIntegerL (cs : List Char) : Option Int :=
  if cs.head? = some '-' then (parseUnsignedAmount cs.tail).map (fun n => -(n : Int))
  else (parseUnsignedAmount cs).map (fun n => (n : Int))

/-- Two-digit zero-padded numeral for `m < 100` (the cents part). -/
def pad2 (m : Nat) : List Char :=
  if m < 10 then '0' :: natToChars m else natToChars m

/-- Modelled from the spec: reformat integer minor units back to a decimal
amount string (the reverse direction of the §8 round-trip property). -/
def integerToAmountL (n : Int) : List Char :=
  let a := n.natAbs
  (if n < 0 then ['-'] else []) ++ natToChars (a / 100) ++ '.' :: pad2 (a % 100)

/-- `amountToInteger`, modelled from the spec, on strings. -/
def amountToInteger (s : String) : Option Int := amountToIntegerL s.data

/-- Reformatting of minor units as a decimal string, modelled from the spec. -/
def integerToAmount (n : Int) : String := ⟨integerToAmountL n⟩

theorem pad2_length {r : Nat} (h : r < 100) : (pad2 r).length = 2 := by
  rw [pad2]
  split
  · next h10 =>
    rw [natToChars_unfold, if_pos h10]
    rfl
  · next h10 =>
    rw [natToChars_unfold, if_neg h10]
    rw [natToChars_unfold, if_pos (show r / 10 < 10 by omega)]
    simp

theorem parseDigits_pad2 {r : Nat} (h : r < 100) : parseDigits (pad2 r) = some r := by
  rw [pad2]
  split
  · next h10 =>
    have key := parseDigitsAux_natToChars r 0 []
    rw [List.append_nil] at key
    rw [parseDigits, if_neg (by simp)]
    show parseDigitsAux 0 ('0' :: natToChars r) = some r
    have hstep : parseDigitsAux 0 ('0' :: natToChars r) = parseDigitsAux 0 (natToChars r) := rfl
    rw [hstep, key]
    show some (0 * 10 ^ numDigits r + r) = some r
    rw [zero_mul, zero_add]
  · next h10 => exact parseDigits_natToChars r

theorem pad2_digits (r : Nat) : ∀ c ∈ pad2 r, ∃ d, d < 10 ∧ c = digitChar d := by
  intro c hc
  rw [pad2] at hc
  split at hc
  · rcases List.mem_cons.mp hc with h | h
    · exact ⟨0, by omega, by rw [h]; rfl⟩
    · exact natToChars_digits _ c h
  · exact natToChars_digits _ c hc

theorem digitChar_ne_dash {d : Nat} (h : d < 10) : digitChar d ≠ '-' := by
  interval_cases d <;> decide

/-- Core round trip: reformatting any integer count of minor units and parsing
it back yields the same integer. -/
theorem amountToIntegerL_integerToAmountL (n : Int) :
    amountToIntegerL (integerToAmountL n) = some n := by
  have hdig : ∀ c ∈ natToChars (n.natAbs / 100), (fun c => c != '.') c = true := by
    intro c hc
    obtain ⟨d, hd, rfl⟩ := natToChars_digits _ c hc
    simpa using digitChar_ne_dot hd
  have hmod : n.natAbs % 100 < 100 := Nat.mod_lt _ (by omega)
  have ht : List.takeWhile (fun c => c != '.') ('.' :: pad2 (n.natAbs % 100)) = [] := by
    simp [List.takeWhile_cons]
  have hdw : List.dropWhile (fun c => c != '.') ('.' :: pad2 (n.natAbs % 100))
      = '.' :: pad2 (n.natAbs % 100) := by
    simp [List.dropWhile_cons]
  have hbody : parseUnsignedAmount
      (natToChars (n.natAbs / 100) ++ '.' :: pad2 (n.natAbs % 100)) = some n.natAbs := by
    simp only [parseUnsignedAmount]
    rw [takeWhile_append_all hdig, dropWhile_append_all hdig, ht, hdw, List.append_nil]
    rw [if_neg (by simp), List.tail_cons, pad2_length hmod]
    rw [if_neg (by decide : ¬(2 = 1)), if_pos rfl]
    rw [parseDigits_natToChars, parseDigits_pad2 hmod]
    show some (n.natAbs / 100 * 100 + n.natAbs % 100) = some n.natAbs
    congr 1
    omega
  rcases hhead : natToChars (n.natAbs / 100) with _ | ⟨c, cs⟩
  · exact absurd hhead (natToChars_ne_nil _)
  obtain ⟨d, hd, rfl⟩ := natToChars_digits _ c (by rw [hhead]; simp)
  by_cases hn : n < 0
  · simp only [integerToAmountL, if_pos hn, List.cons_append, List.nil_append]
    show (parseUnsignedAmount
      (natToChars (n.natAbs / 100) ++ '.' :: pad2 (n.natAbs % 100))).map
        (fun m => -(m : Int)) = some n
    rw [hbody]
    show some (-(n.natAbs : Int)) = some n
    congr 1
    omega
  · simp only [integerToAmountL, if_neg hn, List.nil_append]
    rw [amountToIntegerL, hhead]
    simp only [List.cons_append, List.head?_cons]
    rw [if_neg (by simp only [Option.some.injEq]; exact digitChar_ne_dash hd)]
    rw [← List.cons_append, ← hhead, hbody]
    show some ((n.natAbs : Int)) = some n
    congr 1
    omega

/-! ## Dates: strict pattern parsing and ISO formatting -/

/-- A calendar date value (no time component, spec §3). -/
structure DateV where
  year : Nat
  month : Nat
  day : Nat
deriving DecidableEq

/-- Consume exactly two digit characters. -/
def digits2 : List Char → Option (Nat × List Char)
  | c1 :: c2 :: rest =>
    match charDigit? c1, charDigit? c2 with
    | some d1, some d2 => some (d1 * 10 + d2, rest)
    | _, _ => none
  | _ => none

/-- Consume exactly four digit characters. -/
def digits4 (s : List Char) : Option (Nat × List Char) :=
  (digits2 s).bind fun p => (digits2 p.2).map fun q => (p.1 * 100 + q.1, q.2)

/-- Modelled from the spec: strict parsing of a date string against a
caller-supplied pattern — the role played by the external
`d.parse(trans.date, dateFormat, new Date())` call at `src/unnamed/part_000`
lines 61–63, which is collaborator code not under `src/`.  Pattern tokens
`yyyy`, `yy`, `MM`, `dd` consume that many digits; every other pattern
character must match the input literally, and trailing input is rejected
("parse strictly against that pattern", spec §4.1).  A two-digit year is
resolved into the 21st century. -/
def runPattern : List Char → List Char → Nat × Nat × Nat → Option (Nat × Nat × Nat)
  | 'y' :: 'y' :: 'y' :: 'y' :: fr, s, (_, m, d) =>
    (digits4 s).bind fun p => runPattern fr p.2 (p.1, m, d)
  | 'y' :: 'y' :: fr, s, (_, m, d) =>
    (digits2 s).bind fun p => runPattern fr p.2 (2000 + p.1, m, d)
  | 'M' :: 'M' :: fr, s, (y, _, d) =>
    (digits2 s).bind fun p => runPattern fr p.2 (y, p.1, d)
  | 'd' :: 'd' :: fr, s, (y, m, _) =>
    (digits2 s).bind fun p => runPattern fr p.2 (y, m, p.1)
  | c :: fr, c' :: s', acc => if c = c' then runPattern fr s' acc else none
  | _ :: _, [], _ => none
  | [], [], acc => some acc
  | [], _ :: _, _ => none

/-- Strict date parse against a pattern, with calendar range validation. -/
def parseDateWith (fmt s : String) : Option DateV :=
  (runPattern fmt.data s.data (0, 1, 1)).bind fun v =>
    if 1 ≤ v.2.1 ∧ v.2.1 ≤ 12 ∧ 1 ≤ v.2.2 ∧ v.2.2 ≤ 31 then some ⟨v.1, v.2.1, v.2.2⟩ else none

/-- Zero-pad a numeral on the left to width `w`. -/
def padTo (w : Nat) (n : Nat) : List Char :=
  List.replicate (w - (natToChars n).length) '0' ++ natToChars n

/-- ISO `yyyy-MM-dd` formatting of a calendar date — the role of the external
`d.format(..., 'yyyy-MM-dd')` call at `src/unnamed/part_000` line 62. -/
def formatISO (d : DateV) : String :=
  ⟨padTo 4 d.year ++ '-' :: (padTo 2 d.month ++ '-' :: padTo 2 d.day)⟩

/-! ## Format detection -/

/-- The supported file categories (spec §6). -/
inductive FileFormat where
  | qif
  | ofx
  | qfx
  | camt
deriving DecidableEq

/-- Lower-case a character list. -/
def toLowerL (cs : List Char) : List Char := cs.map Char.toLower

/-- The extension of a filename: the characters after the last dot, if any. -/
def lastExt (cs : List Char) : Option (List Char) :=
  if '.' ∈ cs then some ((cs.reverse.takeWhile (fun c => c != '.')).reverse) else none

/-- Map a lower-case extension to its file format. -/
def formatOfExt (cs : List Char) : Option FileFormat :=
  if cs = ['q', 'i', 'f'] then some .qif
  else if cs = ['o', 'f', 'x'] then some .ofx
  else if cs = ['q', 'f', 'x'] then some .qfx
  else if cs = ['x', 'm', 'l'] then some .camt
  else none

/-- Modelled from the spec: the Format Detector (§4.4, §6) of `parse-file`,
which is not under `src/`.  "select a parser by extension, case-insensitively,
tolerating unusual characters in the filename". -/
def detectFormat (filepath : String) : Option FileFormat :=
  match lastExt filepath.data with
  | none => none
  | some e => formatOfExt (toLowerL e)

/-! ## Records and the parsing/normalization pipeline -/

/-- A raw record as emitted by an external format parser (spec §3). -/
structure RawRecord where
  date : String
  amount : String
  payee : String
  memo : Option String
  fitid : Option String
deriving DecidableEq

/-- An error entry of the Error Reporter (spec §4.5). -/
structure ImportError where
  message : String
deriving DecidableEq

/-- The collaborator parser contract `parse(file) -> { errors, transactions }`
(spec §6). -/
structure ParserOutput where
  errors : List ImportError
  transactions : List RawRecord
deriving DecidableEq

/-- A normalized transaction (spec §3): integer minor-unit amount, resolved
date, notes subject to the import-notes toggle. -/
structure NormalizedTransaction where
  date : String
  amount : Int
  payee : String
  importedPayee : String
  notes : Option String
  fitid : Option String
deriving DecidableEq

/-- Modelled from the spec: `parseFile` (imported by the src test module but
not itself under `src/`): the Format Detector selects the external parser for
the file; an unknown extension is the fatal case, a single
`"Invalid file type"` error and no transactions (§4.4, §6, §7).  The external
format parsers themselves are the collaborator environment `env`. -/
def parseFile (env : FileFormat → ParserOutput) (filepath : String) : ParserOutput :=
  match detectFormat filepath with
  | none => ⟨[⟨"Invalid file type"⟩], []⟩
  | some fmt => env fmt

/-- Modelled from the spec: the Normalizer (§4.1), covering the per-record
mapping done at `src/unnamed/part_000` lines 58–64 (`amountToInteger` on the
amount; the date mapped through the caller-supplied pattern when one is given,
used as-is otherwise) together with the spec's per-record failure semantics
(malformed amount/date is a per-record `ParseError`/`ValidationError`) and the
§4.1 notes toggle (memo kept only when note-import is enabled). -/
def normalizeRecord (dateFormat : Option String) (importNotes : Bool) (r : RawRecord) :
    Except ImportError NormalizedTransaction :=
  match amountToInteger r.amount with
  | none => .error ⟨"Invalid amount: " ++ r.amount⟩
  | some amt =>
    match dateFormat with
    | none =>
      .ok ⟨r.date, amt, r.payee, r.payee, if importNotes then r.memo else none, r.fitid⟩
    | some fmt =>
      match parseDateWith fmt r.date with
      | none => .error ⟨"Invalid date: " ++ r.date⟩
      | some dv =>
        .ok ⟨formatISO dv, amt, r.payee, r.payee,
          if importNotes then r.memo else none, r.fitid⟩

/-- Normalize a batch record by record, accumulating per-record errors without
interrupting the batch (spec §4.3 failure semantics, §4.5). -/
def normalizeTransactions (dateFormat : Option String) (importNotes : Bool) :
    List RawRecord → List ImportError × List NormalizedTransaction
  | [] => ([], [])
  | r :: rs =>
    let rest := normalizeTransactions dateFormat importNotes rs
    match normalizeRecord dateFormat importNotes r with
    | .error e => (e :: rest.1, rest.2)
    | .ok t => (rest.1, t :: rest.2)

/-! ## Import-ID assignment -/

/-- A deduplication key (spec §4.2): either the source's native unique
identifier used verbatim, or a content fingerprint of
`(accountId, date, amount, payee)` plus an occurrence counter. -/
inductive ImportKey where
  | fitid (id : String)
  | fingerprint (acct : String) (date : String) (amount : Int) (payee : String) (occurrence : Nat)
deriving DecidableEq

/-- A normalized transaction with its assigned deduplication key. -/
structure KeyedTransaction where
  tx : NormalizedTransaction
  importId : ImportKey
deriving DecidableEq

/-- The content triple that the fingerprint disambiguates on. -/
def contentKey (t : NormalizedTransaction) : String × Int × String :=
  (t.date, t.amount, t.payee)

/-- Modelled from the spec: the Import-ID Assigner's worker (§4.2).  `seen`
holds the content triples of the fingerprinted records already processed, so
`seen.count` is the occurrence counter ("first occurrence gets counter 0,
second gets 1, etc., in file order"). -/
def assignAux (acct : String) (seen : List (String × Int × String)) :
    List NormalizedTransaction → List KeyedTransaction
  | [] => []
  | t :: ts =>
    match t.fitid with
    | some fid => ⟨t, .fitid fid⟩ :: assignAux acct seen ts
    | none =>
      ⟨t, .fingerprint acct t.date t.amount t.payee (seen.count (contentKey t))⟩
        :: assignAux acct (contentKey t :: seen) ts

/-- Modelled from the spec: the Import-ID Assigner (§4.2), absent from `src/`. -/
def assignImportIds (acct : String) (ts : List NormalizedTransaction) :
    List KeyedTransaction :=
  assignAux acct [] ts

/-! ## The ledger and the Reconciliation Engine -/

/-- A persisted ledger row (spec §3 LedgerTransaction): the logical transaction
fields plus a storage-assigned identity and the user-edited flag. -/
structure LedgerRow where
  id : Nat
  acct : String
  date : String
  amount : Int
  payee : String
  importedPayee : String
  notes : Option String
  importId : Option ImportKey
  userEdited : Bool
deriving DecidableEq

/-- State threaded through reconciliation: the evolving ledger, the claimed
candidate rows (spec §4.3 step 4), the identities added and updated so far,
and the next fresh storage id. -/
structure ReconcileState where
  ledger : List LedgerRow
  claimed : List Nat
  added : List Nat
  updated : List Nat
  nextId : Nat
deriving DecidableEq

/-- A row is an exact `importId` match for the incoming key (spec §4.3 step 1)
if it belongs to the account, carries that key, and is still unclaimed. -/
def isExactMatch (acct : String) (k : ImportKey) (claimed : List Nat) (r : LedgerRow) : Bool :=
  r.acct == acct && r.importId == some k && !(claimed.contains r.id)

/-- A row is a fuzzy match (spec §4.3 step 2) if it is an unreconciled row of
the account (no importId yet) with the same date (default same-day tolerance),
the same amount, a payee similar under the configured predicate `sim`, and is
still unclaimed. -/
def isFuzzyMatch (sim : String → String → Bool) (acct : String) (t : KeyedTransaction)
    (claimed : List Nat) (r : LedgerRow) : Bool :=
  r.acct == acct && r.importId == none && r.date == t.tx.date && r.amount == t.tx.amount
    && sim r.payee t.tx.payee && !(claimed.contains r.id)

/-- Fold an exact match into an existing row: refresh the non-identity fields
(payee/notes) unless the row is user-edited — user edits win (spec §4.3
step 1). -/
def applyExact (t : KeyedTransaction) (r : LedgerRow) : LedgerRow :=
  if r.userEdited then r else { r with payee := t.tx.payee, notes := t.tx.notes }

/-- Reconcile a fuzzy match: attach the importId to the manually-entered row;
refresh payee/notes only when the row is not user-edited (spec §4.3 step 2,
§8 "user-edited rows are never overwritten"). -/
def applyFuzzy (t : KeyedTransaction) (r : LedgerRow) : LedgerRow :=
  if r.userEdited then { r with importId := some t.importId }
  else { r with importId := some t.importId, payee := t.tx.payee, notes := t.tx.notes }

/-- A freshly inserted ledger row for an incoming transaction. -/
def newRow (acct : String) (rid : Nat) (t : KeyedTransaction) : LedgerRow :=
  ⟨rid, acct, t.tx.date, t.tx.amount, t.tx.payee, t.tx.importedPayee, t.tx.notes,
    some t.importId, false⟩

/-- Replace the row with storage id `rid` by its image under `f`. -/
def updateRow (f : LedgerRow → LedgerRow) (rid : Nat) (L : List LedgerRow) : List LedgerRow :=
  L.map fun q => if q.id = rid then f q else q

/-- One step of the Reconciliation Engine (spec §4.3): exact `importId` match
first, then fuzzy match, else insert; a matched row is claimed and leaves the
candidate pool. -/
def reconcileStep (sim : String → String → Bool) (acct : String)
    (st : ReconcileState) (t : KeyedTransaction) : ReconcileState :=
  match st.ledger.find? (isExactMatch acct t.importId st.claimed) with
  | some r =>
    { st with ledger := updateRow (applyExact t) r.id st.ledger,
              claimed := r.id :: st.claimed,
              updated := if r.userEdited then st.updated else st.updated ++ [r.id] }
  | none =>
    match st.ledger.find? (isFuzzyMatch sim acct t st.claimed) with
    | some r =>
      { st with ledger := updateRow (applyFuzzy t) r.id st.ledger,
                claimed := r.id :: st.claimed,
                updated := if r.userEdited then st.updated else st.updated ++ [r.id] }
    | none =>
      { st with ledger := st.ledger ++ [newRow acct st.nextId t],
                added := st.added ++ [st.nextId],
                nextId := st.nextId + 1 }

/-- The largest storage id present in the ledger. -/
def maxRowId (L : List LedgerRow) : Nat := L.foldr (fun r m => max r.id m) 0

/-- The outcome of one reconciliation batch (spec §3 ImportBatchResult plus
the resulting ledger). -/
structure ReconcileResult where
  added : List Nat
  updated : List Nat
  ledger : List LedgerRow
deriving DecidableEq

/-- Modelled from the spec: `reconcileTransactions` (§4.3 Reconciliation
Engine; the repository function is imported by the src test module from
`accounts/sync`, which is not under `src/`).  Incoming transactions are
processed sequentially; fresh storage ids start above every existing id. -/
def reconcileTransactions (sim : String → String → Bool) (acct : String)
    (ts : List KeyedTransaction) (ledger : List LedgerRow) : ReconcileResult :=
  let st := ts.foldl (reconcileStep sim acct) ⟨ledger, [], [], [], maxRowId ledger + 1⟩
  ⟨st.added, st.updated, st.ledger⟩

/-! ## The import entry point (from src) -/

/-- The `{ errors, added }` result of `importFileWithRealTime`
(`src/unnamed/part_000` lines 66–71). -/
structure ImportResult where
  errors : List ImportError
  added : List Nat
deriving DecidableEq

/-- The import entry point, embedded from `importFileWithRealTime`
(`src/unnamed/part_000` lines 41–72): parse the file, map every transaction
through amount conversion and the optional date pattern (lines 55–64, with the
per-record validation of those conversions modelled from spec §4.1), then — if
any errors were collected — return them with an empty `added` set and leave
the ledger untouched (lines 66–68), otherwise assign import ids and reconcile
(line 70). -/
def importFileWithRealTime (env : FileFormat → ParserOutput) (sim : String → String → Bool)
    (accountId : String) (filepath : String) (dateFormat : Option String) (importNotes : Bool)
    (ledger : List LedgerRow) : ImportResult × List LedgerRow :=
  let pr := parseFile env filepath
  let norm := normalizeTransactions dateFormat importNotes pr.transactions
  let errors := pr.errors ++ norm.1
  if errors.isEmpty then
    let res := reconcileTransactions sim accountId (assignImportIds accountId norm.2) ledger
    (⟨[], res.added⟩, res.ledger)
  else (⟨errors, []⟩, ledger)

/-! ## Reconciliation invariants -/

/-- Storage ids are pairwise distinct. -/
def nodupIds (L : List LedgerRow) : Prop := (L.map LedgerRow.id).Nodup

/-- Every storage id in the ledger lies below `n`. -/
def idsBelow (L : List LedgerRow) (n : Nat) : Prop := ∀ r ∈ L, r.id < n

theorem applyExact_id (t : KeyedTransaction) (r : LedgerRow) : (applyExact t r).id = r.id := by
  rw [applyExact]; split <;> rfl

theorem applyFuzzy_id (t : KeyedTransaction) (r : LedgerRow) : (applyFuzzy t r).id = r.id := by
  rw [applyFuzzy]; split <;> rfl

theorem applyExact_acct (t : KeyedTransaction) (r : LedgerRow) :
    (applyExact t r).acct = r.acct := by
  rw [applyExact]; split <;> rfl

theorem applyFuzzy_acct (t : KeyedTransaction) (r : LedgerRow) :
    (applyFuzzy t r).acct = r.acct := by
  rw [applyFuzzy]; split <;> rfl

theorem applyExact_userEdited (t : KeyedTransaction) (r : LedgerRow) :
    (applyExact t r).userEdited = r.userEdited := by
  rw [applyExact]; split <;> rfl

theorem applyFuzzy_userEdited (t : KeyedTransaction) (r : LedgerRow) :
    (applyFuzzy t r).userEdited = r.userEdited := by
  rw [applyFuzzy]; split <;> rfl

theorem applyExact_importId (t : KeyedTransaction) (r : LedgerRow) :
    (applyExact t r).importId = r.importId := by
  rw [applyExact]; split <;> rfl

theorem applyFuzzy_importId (t : KeyedTransaction) (r : LedgerRow) :
    (applyFuzzy t r).importId = some t.importId := by
  rw [applyFuzzy]; split <;> rfl

/-- The single-row update of `updateRow`, as applied to an arbitrary member. -/
def updAt (f : LedgerRow → LedgerRow) (rid : Nat) (q : LedgerRow) : LedgerRow :=
  if q.id = rid then f q else q

theorem updateRow_eq_map (f : LedgerRow → LedgerRow) (rid : Nat) (L : List LedgerRow) :
    updateRow f rid L = L.map (updAt f rid) := rfl

theorem updAt_id {f : LedgerRow → LedgerRow} (hf : ∀ q, (f q).id = q.id) (rid : Nat)
    (q : LedgerRow) : (updAt f rid q).id = q.id := by
  rw [updAt]; split
  · exact hf q
  · rfl

theorem updateRow_map_id {f : LedgerRow → LedgerRow} (hf : ∀ q, (f q).id = q.id)
    (rid : Nat) (L : List LedgerRow) :
    (updateRow f rid L).map LedgerRow.id = L.map LedgerRow.id := by
  rw [updateRow_eq_map, List.map_map]
  exact List.map_congr_left (fun q _ => updAt_id hf rid q)

theorem nodupIds_updateRow {f : LedgerRow → LedgerRow} (hf : ∀ q, (f q).id = q.id)
    {rid : Nat} {L : List LedgerRow} (h : nodupIds L) : nodupIds (updateRow f rid L) := by
  rw [nodupIds, updateRow_map_id hf]
  exact h

theorem idsBelow_updateRow {f : LedgerRow → LedgerRow} (hf : ∀ q, (f q).id = q.id)
    {rid : Nat} {L : List LedgerRow} {n : Nat} (h : idsBelow L n) :
    idsBelow (updateRow f rid L) n := by
  intro r' hr'
  rw [updateRow_eq_map] at hr'
  obtain ⟨q, hq, rfl⟩ := List.mem_map.mp hr'
  rw [updAt_id hf]
  exact h q hq

/-- With distinct storage ids, a row is determined by its id. -/
theorem eq_of_nodupIds {L : List LedgerRow} (h : nodupIds L) {r w : LedgerRow}
    (hr : r ∈ L) (hw : w ∈ L) (hid : r.id = w.id) : r = w :=
  List.inj_on_of_nodup_map h hr hw hid

/-- One reconciliation step preserves distinctness of ids and the id bound. -/
theorem reconcileStep_inv (sim : String → String → Bool) (acct : String)
    (st : ReconcileState) (t : KeyedTransaction)
    (hnd : nodupIds st.ledger) (hb : idsBelow st.ledger st.nextId) :
    nodupIds (reconcileStep sim acct st t).ledger
      ∧ idsBelow (reconcileStep sim acct st t).ledger (reconcileStep sim acct st t).nextId := by
  rw [reconcileStep]
  rcases hfe : st.ledger.find? (isExactMatch acct t.importId st.claimed) with _ | r
  · rcases hff : st.ledger.find? (isFuzzyMatch sim acct t st.claimed) with _ | r
    · refine ⟨?_, ?_⟩
      · rw [nodupIds, List.map_append]
        rw [List.nodup_append]
        refine ⟨hnd, List.nodup_singleton _, ?_⟩
        intro x hx hx'
        simp only [List.map_cons, List.map_nil, List.mem_singleton] at hx'
        obtain ⟨q, hq, rfl⟩ := List.mem_map.mp hx
        have := hb q hq
        simp only [newRow] at hx'
        omega
      · intro r' hr'
        rcases List.mem_append.mp hr' with h | h
        · exact Nat.lt_succ_of_lt (hb r' h)
        · simp only [List.mem_singleton] at h
          subst h
          simp [newRow]
    · exact ⟨nodupIds_updateRow (applyFuzzy_id t) hnd, idsBelow_updateRow (applyFuzzy_id t) hb⟩
  · exact ⟨nodupIds_updateRow (applyExact_id t) hnd, idsBelow_updateRow (applyExact_id t) hb⟩

/-- The whole fold preserves distinctness of ids and the id bound. -/
theorem reconcileFold_inv (sim : String → String → Bool) (acct : String) :
    ∀ (ts : List KeyedTransaction) (st : ReconcileState),
    nodupIds st.ledger → idsBelow st.ledger st.nextId →
    nodupIds (ts.foldl (reconcileStep sim acct) st).ledger
      ∧ idsBelow (ts.foldl (reconcileStep sim acct) st).ledger
          (ts.foldl (reconcileStep sim acct) st).nextId := by
  intro ts
  induction ts with
  | nil => intro st hnd hb; exact ⟨hnd, hb⟩
  | cons t rest ih =>
    intro st hnd hb
    obtain ⟨hnd', hb'⟩ := reconcileStep_inv sim acct st t hnd hb
    exact ih (reconcileStep sim acct st t) hnd' hb'

theorem isExactMatch_iff {acct : String} {k : ImportKey} {claimed : List Nat} {r : LedgerRow} :
    isExactMatch acct k claimed r = true
      ↔ r.acct = acct ∧ r.importId = some k ∧ r.id ∉ claimed := by
  simp [isExactMatch, and_assoc]

theorem isFuzzyMatch_iff {sim : String → String → Bool} {acct : String} {t : KeyedTransaction}
    {claimed : List Nat} {r : LedgerRow} :
    isFuzzyMatch sim acct t claimed r = true
      ↔ r.acct = acct ∧ r.importId = none ∧ r.date = t.tx.date ∧ r.amount = t.tx.amount
          ∧ sim r.payee t.tx.payee = true ∧ r.id ∉ claimed := by
  simp [isFuzzyMatch, and_assoc]

/-- Some row of the account carries the key `k`. -/
def hasKey (acct : String) (k : ImportKey) (L : List LedgerRow) : Prop :=
  ∃ r ∈ L, r.acct = acct ∧ r.importId = some k

/-- Some unclaimed row of the account carries the key `k`. -/
def hasUnclaimedKey (acct : String) (k : ImportKey) (L : List LedgerRow)
    (claimed : List Nat) : Prop :=
  ∃ r ∈ L, r.acct = acct ∧ r.importId = some k ∧ r.id ∉ claimed

/-- A present key stays present across one reconciliation step. -/
theorem reconcileStep_hasKey (sim : String → String → Bool) (acct : String)
    (st : ReconcileState) (t : KeyedTransaction) (k : ImportKey)
    (hnd : nodupIds st.ledger) (h : hasKey acct k st.ledger) :
    hasKey acct k (reconcileStep sim acct st t).ledger := by
  obtain ⟨w, hw, hwa, hwk⟩ := h
  rw [reconcileStep]
  rcases hfe : st.ledger.find? (isExactMatch acct t.importId st.claimed) with _ | r
  · rcases hff : st.ledger.find? (isFuzzyMatch sim acct t st.claimed) with _ | r
    · exact ⟨w, List.mem_append_left _ hw, hwa, hwk⟩
    · refine ⟨updAt (applyFuzzy t) r.id w, List.mem_map_of_mem _ hw, ?_⟩
      have hrmem := List.mem_of_find?_eq_some hff
      have hrfz := (isFuzzyMatch_iff).mp (List.find?_some hff)
      have hne : w.id ≠ r.id := by
        intro heq
        have := eq_of_nodupIds hnd hw hrmem heq
        rw [this, hrfz.2.1] at hwk
        exact Option.noConfusion hwk
      rw [updAt, if_neg hne]
      exact ⟨hwa, hwk⟩
  · refine ⟨updAt (applyExact t) r.id w, List.mem_map_of_mem _ hw, ?_⟩
    rw [updAt]
    split
    · rw [applyExact_acct, applyExact_importId]
      exact ⟨hwa, hwk⟩
    · exact ⟨hwa, hwk⟩

/-- A present key stays present across a whole reconciliation fold. -/
theorem reconcileFold_hasKey (sim : String → String → Bool) (acct : String) :
    ∀ (ts : List KeyedTransaction) (st : ReconcileState) (k : ImportKey),
    nodupIds st.ledger → idsBelow st.ledger st.nextId → hasKey acct k st.ledger →
    hasKey acct k (ts.foldl (reconcileStep sim acct) st).ledger := by
  intro ts
  induction ts with
  | nil => intro st k _ _ h; exact h
  | cons t rest ih =>
    intro st k hnd hb h
    obtain ⟨hnd', hb'⟩ := reconcileStep_inv sim acct st t hnd hb
    exact ih _ k hnd' hb' (reconcileStep_hasKey sim acct st t k hnd h)

/-- Each processed transaction leaves its key present in the ledger: an exact
match keeps it, a fuzzy match attaches it, an insert carries it. -/
theorem reconcileStep_establish (sim : String → String → Bool) (acct : String)
    (st : ReconcileState) (t : KeyedTransaction) :
    hasKey acct t.importId (reconcileStep sim acct st t).ledger := by
  rw [reconcileStep]
  rcases hfe : st.ledger.find? (isExactMatch acct t.importId st.claimed) with _ | r
  · rcases hff : st.ledger.find? (isFuzzyMatch sim acct t st.claimed) with _ | r
    · exact ⟨newRow acct st.nextId t, List.mem_append_right _ (List.mem_singleton.mpr rfl),
        rfl, rfl⟩
    · have hrmem := List.mem_of_find?_eq_some hff
      have hrfz := (isFuzzyMatch_iff).mp (List.find?_some hff)
      refine ⟨updAt (applyFuzzy t) r.id r, List.mem_map_of_mem _ hrmem, ?_⟩
      rw [updAt, if_pos rfl, applyFuzzy_acct, applyFuzzy_importId]
      exact ⟨hrfz.1, rfl⟩
  · have hrmem := List.mem_of_find?_eq_some hfe
    have hrex := (isExactMatch_iff).mp (List.find?_some hfe)
    refine ⟨updAt (applyExact t) r.id r, List.mem_map_of_mem _ hrmem, ?_⟩
    rw [updAt, if_pos rfl, applyExact_acct, applyExact_importId]
    exact ⟨hrex.1, hrex.2.1⟩

/-- After one reconciliation run, every incoming transaction's key is present
on some row of the account. -/
theorem reconcileFold_keys (sim : String → String → Bool) (acct : String) :
    ∀ (ts : List KeyedTransaction) (st : ReconcileState),
    nodupIds st.ledger → idsBelow st.ledger st.nextId →
    ∀ t ∈ ts, hasKey acct t.importId (ts.foldl (reconcileStep sim acct) st).ledger := by
  intro ts
  induction ts with
  | nil => intro st _ _ t ht; exact absurd ht (List.not_mem_nil t)
  | cons u rest ih =>
    intro st hnd hb t ht
    obtain ⟨hnd', hb'⟩ := reconcileStep_inv sim acct st u hnd hb
    rcases List.mem_cons.mp ht with rfl | ht'
    · exact reconcileFold_hasKey sim acct rest _ t.importId hnd' hb'
        (reconcileStep_establish sim acct st t)
    · exact ih _ hnd' hb' t ht'

/-- If every incoming transaction has an unclaimed exact match available and
incoming keys are pairwise distinct, the reconciliation fold inserts
nothing. -/
theorem reconcileFold_no_insert (sim : String → String → Bool) (acct : String) :
    ∀ (ts : List KeyedTransaction) (st : ReconcileState),
    nodupIds st.ledger → idsBelow st.ledger st.nextId →
    ts.Pairwise (fun a b => a.importId ≠ b.importId) →
    (∀ t ∈ ts, hasUnclaimedKey acct t.importId st.ledger st.claimed) →
    (ts.foldl (reconcileStep sim acct) st).added = st.added := by
  intro ts
  induction ts with
  | nil => intro st _ _ _ _; rfl
  | cons t rest ih =>
    intro st hnd hb hpw hall
    obtain ⟨hhead, hrest⟩ := List.pairwise_cons.mp hpw
    obtain ⟨w, hw, hwa, hwk, hwc⟩ := hall t (List.mem_cons_self t rest)
    -- the exact lookup cannot fail: `w` satisfies the predicate
    rcases hfe : st.ledger.find? (isExactMatch acct t.importId st.claimed) with _ | r
    · exact absurd (isExactMatch_iff.mpr ⟨hwa, hwk, hwc⟩)
        (by simpa using List.find?_eq_none.mp hfe w hw)
    · have hrmem := List.mem_of_find?_eq_some hfe
      have hrex := (isExactMatch_iff).mp (List.find?_some hfe)
      have hstep : reconcileStep sim acct st t
          = { st with ledger := updateRow (applyExact t) r.id st.ledger,
                      claimed := r.id :: st.claimed,
                      updated := if r.userEdited then st.updated
                                 else st.updated ++ [r.id] } := by
        rw [reconcileStep, hfe]
      have hnd' : nodupIds (updateRow (applyExact t) r.id st.ledger) :=
        nodupIds_updateRow (applyExact_id t) hnd
      have hb' : idsBelow (updateRow (applyExact t) r.id st.ledger) st.nextId :=
        idsBelow_updateRow (applyExact_id t) hb
      have hall' : ∀ u ∈ rest,
          hasUnclaimedKey acct u.importId (updateRow (applyExact t) r.id st.ledger)
            (r.id :: st.claimed) := by
        intro u hu
        obtain ⟨wu, hwu, hwua, hwuk, hwuc⟩ := hall u (List.mem_cons_of_mem t hu)
        have hne : wu.id ≠ r.id := by
          intro heq
          have := eq_of_nodupIds hnd hwu hrmem heq
          rw [this] at hwuk
          rw [hrex.2.1] at hwuk
          exact hhead u hu (Option.some.injEq _ _ ▸ hwuk.symm ▸ rfl) |>.elim
        refine ⟨updAt (applyExact t) r.id wu, List.mem_map_of_mem _ hwu, ?_⟩
        rw [updAt, if_neg hne]
        exact ⟨hwua, hwuk, by
          intro hc
          rcases List.mem_cons.mp hc with h | h
          · exact hne h
          · exact hwuc h⟩
      rw [List.foldl_cons, hstep]
      have := ih { st with ledger := updateRow (applyExact t) r.id st.ledger,
                           claimed := r.id :: st.claimed,
                           updated := if r.userEdited then st.updated
                                      else st.updated ++ [r.id] }
        hnd' hb' hrest hall'
      exact this

theorem le_maxRowId : ∀ (L : List LedgerRow), ∀ r ∈ L, r.id ≤ maxRowId L := by
  intro L
  induction L with
  | nil => intro r hr; exact absurd hr (List.not_mem_nil r)
  | cons q L ih =>
    intro r hr
    rcases List.mem_cons.mp hr with rfl | hr'
    · exact le_max_left _ _
    · exact le_trans (ih r hr') (le_max_right _ _)

theorem idsBelow_maxRowId (L : List LedgerRow) : idsBelow L (maxRowId L + 1) :=
  fun r hr => Nat.lt_succ_of_le (le_maxRowId L r hr)

/-- C1.  Importing the same (normalized and keyed) batch a second time against
the same account adds zero transactions: every incoming transaction finds an
existing row by importId and is skipped or folded in, never inserted again.
The ledger has distinct storage ids, and the Import-ID Assigner guarantees the
batch's keys are pairwise distinct (spec §4.2). -/
theorem reconcile_idempotent (sim : String → String → Bool) (acct : String)
    (ts : List KeyedTransaction) (L : List LedgerRow)
    (hnd : nodupIds L)
    (hkeys : ts.Pairwise (fun a b => a.importId ≠ b.importId)) :
    (reconcileTransactions sim acct ts
      (reconcileTransactions sim acct ts L).ledger).added = [] := by
  have hb0 : idsBelow L (maxRowId L + 1) := idsBelow_maxRowId L
  have hL1nd := (reconcileFold_inv sim acct ts ⟨L, [], [], [], maxRowId L + 1⟩ hnd hb0).1
  have hkeysIn := reconcileFold_keys sim acct ts ⟨L, [], [], [], maxRowId L + 1⟩ hnd hb0
  have hL1 : (reconcileTransactions sim acct ts L).ledger
      = (ts.foldl (reconcileStep sim acct) ⟨L, [], [], [], maxRowId L + 1⟩).ledger := rfl
  rw [reconcileTransactions]
  show (ts.foldl (reconcileStep sim acct)
    ⟨(reconcileTransactions sim acct ts L).ledger, [], [], [],
      maxRowId (reconcileTransactions sim acct ts L).ledger + 1⟩).added = []
  rw [reconcileFold_no_insert sim acct ts _ (by rw [hL1]; exact hL1nd)
    (idsBelow_maxRowId _) hkeys ?_]
  intro t ht
  obtain ⟨r, hr, hra, hrk⟩ := hL1 ▸ hkeysIn t ht
  exact ⟨r, hr, hra, hrk, by simp⟩

/-! ## Sample data for concrete witnesses -/

/-- A sample normalized transaction with no source-provided unique id. -/
def sampleTxA : NormalizedTransaction :=
  ⟨"2021-03-02", -1234, "Coffee", "Coffee", some "memo", none⟩

/-- A sample normalized transaction with a source-provided unique id. -/
def sampleTxB : NormalizedTransaction :=
  ⟨"2021-03-03", 500, "Salary", "Salary", none, some "FIT-1"⟩

/-- A sample keyed batch produced by the Import-ID Assigner. -/
def sampleBatch : List KeyedTransaction := assignImportIds "one" [sampleTxA, sampleTxB]

/-- Witness for C1 at a concrete batch and the empty ledger. -/
theorem reconcile_idempotent_witness :
    nodupIds ([] : List LedgerRow)
      ∧ sampleBatch.Pairwise (fun a b => a.importId ≠ b.importId)
      ∧ (reconcileTransactions (fun _ _ => false) "one" sampleBatch
          (reconcileTransactions (fun _ _ => false) "one" sampleBatch []).ledger).added = [] :=
  ⟨by unfold nodupIds; decide, by decide,
    reconcile_idempotent (fun _ _ => false) "one" sampleBatch []
      (by unfold nodupIds; decide) (by decide)⟩

/-! ## Tracking inserted rows -/

/-- The step either leaves `added`/`nextId` unchanged (match) or appends the
fresh id and bumps the counter (insert). -/
theorem reconcileStep_added_nextId (sim : String → String → Bool) (acct : String)
    (st : ReconcileState) (t : KeyedTransaction) :
    ((reconcileStep sim acct st t).added = st.added
        ∧ (reconcileStep sim acct st t).nextId = st.nextId)
      ∨ ((reconcileStep sim acct st t).added = st.added ++ [st.nextId]
        ∧ (reconcileStep sim acct st t).nextId = st.nextId + 1) := by
  rw [reconcileStep]
  rcases st.ledger.find? (isExactMatch acct t.importId st.claimed) with _ | r
  · rcases st.ledger.find? (isFuzzyMatch sim acct t st.claimed) with _ | r
    · exact Or.inr ⟨rfl, rfl⟩
    · exact Or.inl ⟨rfl, rfl⟩
  · exact Or.inl ⟨rfl, rfl⟩

/-- Every id recorded in `added` by the fold was either already recorded or is
at least the starting fresh id. -/
theorem reconcileFold_added_bound (sim : String → String → Bool) (acct : String) :
    ∀ (ts : List KeyedTransaction) (st : ReconcileState) (a : Nat),
    a ∈ (ts.foldl (reconcileStep sim acct) st).added → a ∈ st.added ∨ st.nextId ≤ a := by
  intro ts
  induction ts with
  | nil => intro st a ha; exact Or.inl ha
  | cons t rest ih =>
    intro st a ha
    rw [List.foldl_cons] at ha
    rcases ih (reconcileStep sim acct st t) a ha with h | h
      <;> rcases reconcileStep_added_nextId sim acct st t with ⟨he, hn⟩ | ⟨he, hn⟩
    · exact Or.inl (he ▸ h)
    · rw [he] at h
      rcases List.mem_append.mp h with h' | h'
      · exact Or.inl h'
      · simp only [List.mem_singleton] at h'
        exact Or.inr (le_of_eq h'.symm)
    · exact Or.inr (hn ▸ h)
    · rw [hn] at h
      omega

/-- Every row after one step either has notes satisfying `Q` (when the
incoming transaction's notes do) or carries its notes unchanged from a row of
the previous ledger with the same id. -/
theorem reconcileStep_notes {Q : Option String → Prop} (sim : String → String → Bool)
    (acct : String) (st : ReconcileState) (t : KeyedTransaction) (hQ : Q t.tx.notes) :
    ∀ r ∈ (reconcileStep sim acct st t).ledger,
      Q r.notes ∨ ∃ q ∈ st.ledger, r.id = q.id ∧ r.notes = q.notes := by
  intro r hr
  rw [reconcileStep] at hr
  rcases hfe : st.ledger.find? (isExactMatch acct t.importId st.claimed) with _ | r₀
  · rcases hff : st.ledger.find? (isFuzzyMatch sim acct t st.claimed) with _ | r₀
    · rw [hfe, hff] at hr
      simp only at hr
      rcases List.mem_append.mp hr with h | h
      · exact Or.inr ⟨r, h, rfl, rfl⟩
      · simp only [List.mem_singleton] at h
        subst h
        exact Or.inl hQ
    · rw [hfe, hff] at hr
      simp only [updateRow_eq_map] at hr
      obtain ⟨q, hq, rfl⟩ := List.mem_map.mp hr
      rw [updAt]
      split
      · rw [applyFuzzy]
        split
        · exact Or.inr ⟨q, hq, rfl, rfl⟩
        · exact Or.inl hQ
      · exact Or.inr ⟨q, hq, rfl, rfl⟩
  · rw [hfe] at hr
    simp only [updateRow_eq_map] at hr
    obtain ⟨q, hq, rfl⟩ := List.mem_map.mp hr
    rw [updAt]
    split
    · rw [applyExact]
      split
      · exact Or.inr ⟨q, hq, rfl, rfl⟩
      · exact Or.inl hQ
    · exact Or.inr ⟨q, hq, rfl, rfl⟩

/-- Every row after the fold either has notes satisfying `Q` (when all
incoming notes do) or inherits its notes from the starting ledger. -/
theorem reconcileFold_notes {Q : Option String → Prop} (sim : String → String → Bool)
    (acct : String) :
    ∀ (ts : List KeyedTransaction) (st : ReconcileState),
    (∀ t ∈ ts, Q t.tx.notes) →
    ∀ r' ∈ (ts.foldl (reconcileStep sim acct) st).ledger,
      Q r'.notes ∨ ∃ q ∈ st.ledger, r'.id = q.id ∧ r'.notes = q.notes := by
  intro ts
  induction ts with
  | nil => intro st _ r' hr'; exact Or.inr ⟨r', hr', rfl, rfl⟩
  | cons t rest ih =>
    intro st hQ r' hr'
    rw [List.foldl_cons] at hr'
    rcases ih (reconcileStep sim acct st t)
        (fun u hu => hQ u (List.mem_cons_of_mem t hu)) r' hr' with h | ⟨q, hq, hid, hnotes⟩
    · exact Or.inl h
    · rcases reconcileStep_notes sim acct st t (hQ t (List.mem_cons_self t rest)) q hq
        with h | ⟨q', hq', hid', hnotes'⟩
      · exact Or.inl (hnotes ▸ h)
      · exact Or.inr ⟨q', hq', hid.trans hid', hnotes.trans hnotes'⟩

/-- Assigned transactions come from the input batch. -/
theorem assignAux_tx_mem (acct : String) :
    ∀ (ts : List NormalizedTransaction) (seen : List (String × Int × String))
      (kt : KeyedTransaction), kt ∈ assignAux acct seen ts → kt.tx ∈ ts := by
  intro ts
  induction ts with
  | nil => intro seen kt h; exact absurd h (List.not_mem_nil kt)
  | cons t rest ih =>
    intro seen kt h
    rw [assignAux] at h
    rcases hf : t.fitid with _ | fid
    · rw [hf] at h
      rcases List.mem_cons.mp h with rfl | h'
      · exact List.mem_cons_self t rest
      · exact List.mem_cons_of_mem t (ih _ kt h')
    · rw [hf] at h
      rcases List.mem_cons.mp h with rfl | h'
      · exact List.mem_cons_self t rest
      · exact List.mem_cons_of_mem t (ih _ kt h')

/-- The notes field of a normalized transaction obeys the import-notes
toggle. -/
theorem normalizeRecord_ok_notes {dfmt : Option String} {imp : Bool} {r : RawRecord}
    {t : NormalizedTransaction} (h : normalizeRecord dfmt imp r = .ok t) :
    t.notes = if imp then r.memo else none := by
  rw [normalizeRecord] at h
  split at h
  · exact Except.noConfusion h
  · split at h
    · simp only [Except.ok.injEq] at h
      rw [← h]
    · split at h
      · exact Except.noConfusion h
      · simp only [Except.ok.injEq] at h
        rw [← h]

/-- Every transaction surviving normalization is the successful normalization
of some raw record of the batch. -/
theorem normalizeTransactions_mem (dfmt : Option String) (imp : Bool) :
    ∀ (rs : List RawRecord) (t : NormalizedTransaction),
    t ∈ (normalizeTransactions dfmt imp rs).2 →
    ∃ r ∈ rs, normalizeRecord dfmt imp r = .ok t := by
  intro rs
  induction rs with
  | nil => intro t h; exact absurd h (List.not_mem_nil t)
  | cons r rest ih =>
    intro t h
    rw [normalizeTransactions] at h
    rcases hn : normalizeRecord dfmt imp r with e | t₀
    · rw [hn] at h
      obtain ⟨r', hr', ho⟩ := ih t h
      exact ⟨r', List.mem_cons_of_mem r hr', ho⟩
    · rw [hn] at h
      rcases List.mem_cons.mp h with rfl | h'
      · exact ⟨r, List.mem_cons_self r rest, hn⟩
      · obtain ⟨r', hr', ho⟩ := ih t h'
        exact ⟨r', List.mem_cons_of_mem r hr', ho⟩

/-- Unfolding of the import entry point into its two outcomes. -/
theorem importFileWithRealTime_eq (env : FileFormat → ParserOutput)
    (sim : String → String → Bool) (accountId filepath : String) (dateFormat : Option String)
    (importNotes : Bool) (ledger : List LedgerRow) :
    importFileWithRealTime env sim accountId filepath dateFormat importNotes ledger
      = if ((parseFile env filepath).errors
            ++ (normalizeTransactions dateFormat importNotes
                  (parseFile env filepath).transactions).1).isEmpty
        then (⟨[], (reconcileTransactions sim accountId
                (assignImportIds accountId
                  (normalizeTransactions dateFormat importNotes
                    (parseFile env filepath).transactions).2) ledger).added⟩,
              (reconcileTransactions sim accountId
                (assignImportIds accountId
                  (normalizeTransactions dateFormat importNotes
                    (parseFile env filepath).transactions).2) ledger).ledger)
        else (⟨(parseFile env filepath).errors
            ++ (normalizeTransactions dateFormat importNotes
                  (parseFile env filepath).transactions).1, []⟩, ledger) := rfl

/-- Rows inserted by an import carry notes satisfying any property enjoyed by
all normalized incoming notes. -/
theorem import_inserted_notes {Q : Option String → Prop} (env : FileFormat → ParserOutput)
    (sim : String → String → Bool) (acct fp : String) (dfmt : Option String) (imp : Bool)
    (L : List LedgerRow)
    (hQ : ∀ t ∈ (normalizeTransactions dfmt imp (parseFile env fp).transactions).2, Q t.notes) :
    ∀ r' ∈ (importFileWithRealTime env sim acct fp dfmt imp L).2,
      r'.id ∈ (importFileWithRealTime env sim acct fp dfmt imp L).1.added → Q r'.notes := by
  intro r' hr' hid
  rw [importFileWithRealTime_eq] at hr' hid
  by_cases hie : ((parseFile env fp).errors
      ++ (normalizeTransactions dfmt imp (parseFile env fp).transactions).1).isEmpty
  · rw [if_pos hie] at hr' hid
    simp only at hr' hid
    have hbound := reconcileFold_added_bound sim acct
      (assignImportIds acct (normalizeTransactions dfmt imp (parseFile env fp).transactions).2)
      ⟨L, [], [], [], maxRowId L + 1⟩ r'.id hid
    have hfresh : maxRowId L + 1 ≤ r'.id := by
      rcases hbound with h | h
      · exact absurd h (List.not_mem_nil _)
      · exact h
    have hkeyedQ : ∀ kt ∈ assignImportIds acct
        (normalizeTransactions dfmt imp (parseFile env fp).transactions).2, Q kt.tx.notes :=
      fun kt hkt => hQ kt.tx (assignAux_tx_mem acct _ [] kt hkt)
    rcases reconcileFold_notes sim acct _ ⟨L, [], [], [], maxRowId L + 1⟩ hkeyedQ r' hr'
      with h | ⟨q, hq, hidq, _⟩
    · exact h
    · have := le_maxRowId L q hq
      omega
  · rw [if_neg hie] at hid
    exact absurd hid (List.not_mem_nil _)

/-- C4.  With `importNotes:false` every transaction inserted by the import has
an empty notes field regardless of the source memo; with `importNotes:true`
the inserted notes are the source memo of some record of the parsed file.
This holds uniformly over every parser environment, hence every file
format. -/
theorem import_notes_toggle :
    (∀ (env : FileFormat → ParserOutput) (sim : String → String → Bool) (acct fp : String)
       (dfmt : Option String) (L : List LedgerRow) (r' : LedgerRow),
       r' ∈ (importFileWithRealTime env sim acct fp dfmt false L).2 →
       r'.id ∈ (importFileWithRealTime env sim acct fp dfmt false L).1.added →
       r'.notes = none)
  ∧ (∀ (env : FileFormat → ParserOutput) (sim : String → String → Bool) (acct fp : String)
       (dfmt : Option String) (L : List LedgerRow) (r' : LedgerRow),
       r' ∈ (importFileWithRealTime env sim acct fp dfmt true L).2 →
       r'.id ∈ (importFileWithRealTime env sim acct fp dfmt true L).1.added →
       ∃ rec ∈ (parseFile env fp).transactions, r'.notes = rec.memo) := by
  constructor
  · intro env sim acct fp dfmt L r' hr' hid
    refine @import_inserted_notes (fun o => o = none) env sim acct fp dfmt false L ?_ r' hr' hid
    intro t ht
    obtain ⟨r, _, ho⟩ := normalizeTransactions_mem dfmt false _ t ht
    simpa using normalizeRecord_ok_notes ho
  · intro env sim acct fp dfmt L r' hr' hid
    refine @import_inserted_notes
      (fun o => ∃ rec ∈ (parseFile env fp).transactions, o = rec.memo)
      env sim acct fp dfmt true L ?_ r' hr' hid
    intro t ht
    obtain ⟨r, hrmem, ho⟩ := normalizeTransactions_mem dfmt true _ t ht
    exact ⟨r, hrmem, by simpa using normalizeRecord_ok_notes ho⟩

/-! ## User edits win -/

/-- One step keeps every pre-existing row present (same id, same user-edited
flag), and leaves payee and notes of user-edited rows untouched. -/
theorem reconcileStep_preserves (sim : String → String → Bool) (acct : String)
    (st : ReconcileState) (t : KeyedTransaction) :
    ∀ r ∈ st.ledger, ∃ r' ∈ (reconcileStep sim acct st t).ledger,
      r'.id = r.id ∧ r'.userEdited = r.userEdited
        ∧ (r.userEdited = true → r'.payee = r.payee ∧ r'.notes = r.notes) := by
  intro r hr
  rw [reconcileStep]
  rcases st.ledger.find? (isExactMatch acct t.importId st.claimed) with _ | r₀
  · rcases st.ledger.find? (isFuzzyMatch sim acct t st.claimed) with _ | r₀
    · exact ⟨r, List.mem_append_left _ hr, rfl, rfl, fun _ => ⟨rfl, rfl⟩⟩
    · refine ⟨updAt (applyFuzzy t) r₀.id r, List.mem_map_of_mem _ hr, ?_, ?_, ?_⟩
      · exact updAt_id (applyFuzzy_id t) r₀.id r
      · rw [updAt]; split
        · exact applyFuzzy_userEdited t r
        · rfl
      · intro hue
        rw [updAt]
        split
        · rw [applyFuzzy, if_pos hue]
          exact ⟨rfl, rfl⟩
        · exact ⟨rfl, rfl⟩
  · refine ⟨updAt (applyExact t) r₀.id r, List.mem_map_of_mem _ hr, ?_, ?_, ?_⟩
    · exact updAt_id (applyExact_id t) r₀.id r
    · rw [updAt]; split
      · exact applyExact_userEdited t r
      · rfl
    · intro hue
      rw [updAt]
      split
      · rw [applyExact, if_pos hue]
        exact ⟨rfl, rfl⟩
      · exact ⟨rfl, rfl⟩

/-- The whole fold keeps every pre-existing row present and never changes
payee or notes of a user-edited row. -/
theorem reconcileFold_preserves (sim : String → String → Bool) (acct : String) :
    ∀ (ts : List KeyedTransaction) (st : ReconcileState),
    ∀ r ∈ st.ledger, ∃ r' ∈ (ts.foldl (reconcileStep sim acct) st).ledger,
      r'.id = r.id ∧ r'.userEdited = r.userEdited
        ∧ (r.userEdited = true → r'.payee = r.payee ∧ r'.notes = r.notes) := by
  intro ts
  induction ts with
  | nil => intro st r hr; exact ⟨r, hr, rfl, rfl, fun _ => ⟨rfl, rfl⟩⟩
  | cons t rest ih =>
    intro st r hr
    obtain ⟨r₁, hr₁, hid₁, hue₁, hpn₁⟩ := reconcileStep_preserves sim acct st t r hr
    obtain ⟨r₂, hr₂, hid₂, hue₂, hpn₂⟩ := ih (reconcileStep sim acct st t) r₁ hr₁
    refine ⟨r₂, hr₂, hid₂.trans hid₁, hue₂.trans hue₁, ?_⟩
    intro hue
    obtain ⟨hp₁, hn₁⟩ := hpn₁ hue
    obtain ⟨hp₂, hn₂⟩ := hpn₂ (hue₁ ▸ hue)
    exact ⟨hp₂.trans hp₁, hn₂.trans hn₁⟩

/-- C9.  User-edited rows are never overwritten: after any reconciliation run
a user-edited row is still present with its payee and notes exactly as the
user set them; and an exact-matched row that is not user-edited takes the
update path, its payee and notes refreshed from the incoming data. -/
theorem user_edits_win :
    (∀ (sim : String → String → Bool) (acct : String) (ts : List KeyedTransaction)
       (L : List LedgerRow) (r : LedgerRow), r ∈ L → r.userEdited = true →
       ∃ r' ∈ (reconcileTransactions sim acct ts L).ledger,
         r'.id = r.id ∧ r'.userEdited = true ∧ r'.payee = r.payee ∧ r'.notes = r.notes)
  ∧ (∀ (sim : String → String → Bool) (acct : String) (t : KeyedTransaction)
       (L : List LedgerRow) (r : LedgerRow),
       L.find? (isExactMatch acct t.importId []) = some r → r.userEdited = false →
       ∃ r' ∈ (reconcileTransactions sim acct [t] L).ledger,
         r'.id = r.id ∧ r'.payee = t.tx.payee ∧ r'.notes = t.tx.notes) := by
  constructor
  · intro sim acct ts L r hr hue
    obtain ⟨r', hr', hid, hue', hpn⟩ :=
      reconcileFold_preserves sim acct ts ⟨L, [], [], [], maxRowId L + 1⟩ r hr
    obtain ⟨hp, hn⟩ := hpn hue
    exact ⟨r', hr', hid, hue ▸ hue', hp, hn⟩
  · intro sim acct t L r hfind hue
    have hstep : (reconcileTransactions sim acct [t] L).ledger
        = updateRow (applyExact t) r.id L := by
      show (reconcileStep sim acct ⟨L, [], [], [], maxRowId L + 1⟩ t).ledger = _
      rw [reconcileStep]
      rw [show (⟨L, [], [], [], maxRowId L + 1⟩ : ReconcileState).ledger.find?
            (isExactMatch acct t.importId
              (⟨L, [], [], [], maxRowId L + 1⟩ : ReconcileState).claimed) = some r from hfind]
    rw [hstep]
    refine ⟨updAt (applyExact t) r.id r,
      List.mem_map_of_mem _ (List.mem_of_find?_eq_some hfind), ?_⟩
    rw [updAt, if_pos rfl, applyExact, if_neg (by rw [hue]; exact Bool.false_ne_true)]
    exact ⟨rfl, rfl, rfl⟩

/-! ## Witness data for C4 and C9 -/

/-- A one-record parser environment whose record carries a source memo. -/
def sampleEnv : FileFormat → ParserOutput := fun _ =>
  ⟨[], [⟨"2021-03-02", "-12.34", "Coffee", some "memo", none⟩]⟩

/-- The row `sampleEnv`'s record inserts when notes are disabled. -/
def sampleInsertedRow : LedgerRow :=
  ⟨1, "one", "2021-03-02", -1234, "Coffee", "Coffee", none,
    some (.fingerprint "one" "2021-03-02" (-1234) "Coffee" 0), false⟩

/-- The row `sampleEnv`'s record inserts when notes are enabled. -/
def sampleInsertedRowNotes : LedgerRow :=
  ⟨1, "one", "2021-03-02", -1234, "Coffee", "Coffee", some "memo",
    some (.fingerprint "one" "2021-03-02" (-1234) "Coffee" 0), false⟩

/-- Witness for C4 at `sampleEnv`: with the toggle off the inserted row has no
notes; with it on the inserted row carries the source memo. -/
theorem import_notes_toggle_witness :
    (sampleInsertedRow ∈ (importFileWithRealTime sampleEnv (fun _ _ => false)
        "one" "a.qfx" none false []).2
      ∧ sampleInsertedRow.id ∈ (importFileWithRealTime sampleEnv (fun _ _ => false)
          "one" "a.qfx" none false []).1.added
      ∧ sampleInsertedRow.notes = none)
  ∧ (sampleInsertedRowNotes ∈ (importFileWithRealTime sampleEnv (fun _ _ => false)
        "one" "a.qfx" none true []).2
      ∧ sampleInsertedRowNotes.id ∈ (importFileWithRealTime sampleEnv (fun _ _ => false)
          "one" "a.qfx" none true []).1.added
      ∧ ∃ rec ∈ (parseFile sampleEnv "a.qfx").transactions,
          sampleInsertedRowNotes.notes = rec.memo) :=
  ⟨⟨by decide, by decide,
      import_notes_toggle.1 sampleEnv (fun _ _ => false) "one" "a.qfx" none []
        sampleInsertedRow (by decide) (by decide)⟩,
   ⟨by decide, by decide,
      import_notes_toggle.2 sampleEnv (fun _ _ => false) "one" "a.qfx" none []
        sampleInsertedRowNotes (by decide) (by decide)⟩⟩

/-- A user-edited ledger row. -/
def editedRow : LedgerRow :=
  ⟨7, "one", "2021-03-02", -1234, "My Payee", "Coffee", some "my note",
    some (.fitid "X"), true⟩

/-- A non-user-edited ledger row carrying an importId. -/
def plainRow : LedgerRow :=
  ⟨3, "one", "2021-03-02", -1234, "Old", "Old", none, some (.fitid "Y"), false⟩

/-- An incoming transaction exact-matching `plainRow`. -/
def updTx : KeyedTransaction :=
  ⟨⟨"2021-03-02", -1234, "New Payee", "New Payee", some "new note", none⟩, .fitid "Y"⟩

/-- Witness for C9: the user-edited row keeps its payee and notes through an
import; the plain row takes the update path. -/
theorem user_edits_win_witness :
    (editedRow ∈ [editedRow] ∧ editedRow.userEdited = true
      ∧ ∃ r' ∈ (reconcileTransactions (fun _ _ => true) "one" sampleBatch [editedRow]).ledger,
          r'.id = editedRow.id ∧ r'.userEdited = true
            ∧ r'.payee = editedRow.payee ∧ r'.notes = editedRow.notes)
  ∧ ([plainRow].find? (isExactMatch "one" updTx.importId []) = some plainRow
      ∧ plainRow.userEdited = false
      ∧ ∃ r' ∈ (reconcileTransactions (fun _ _ => true) "one" [updTx] [plainRow]).ledger,
          r'.id = plainRow.id ∧ r'.payee = updTx.tx.payee ∧ r'.notes = updTx.tx.notes) :=
  ⟨⟨by decide, rfl,
      user_edits_win.1 (fun _ _ => true) "one" sampleBatch [editedRow] editedRow
        (by decide) rfl⟩,
   ⟨by decide, rfl,
      user_edits_win.2 (fun _ _ => true) "one" updTx [plainRow] plainRow (by decide) rfl⟩⟩

/-! ## The Import-ID Assigner: occurrence counters, determinism -/

/-- The number of earlier records (in file order) that also lack a source id
and share `t`'s content triple. -/
def occurrencesBefore (ts : List NormalizedTransaction) (i : Nat)
    (t : NormalizedTransaction) : Nat :=
  (ts.take i).countP (fun u => u.fitid == none && (contentKey u == contentKey t))

/-- The fingerprint occurrence counter equals the seed count plus the number
of earlier same-content fingerprinted records. -/
theorem assignAux_getElem? (acct : String) :
    ∀ (ts : List NormalizedTransaction) (seen : List (String × Int × String)) (i : Nat)
      (t : NormalizedTransaction), ts[i]? = some t → t.fitid = none →
    (assignAux acct seen ts)[i]?
      = some ⟨t, .fingerprint acct t.date t.amount t.payee
          (seen.count (contentKey t) + occurrencesBefore ts i t)⟩ := by
  intro ts
  induction ts with
  | nil => intro seen i t h _; rw [List.getElem?_nil] at h; exact Option.noConfusion h
  | cons u rest ih =>
    intro seen i t h hf
    rcases i with _ | i
    · rw [List.getElem?_cons_zero, Option.some.injEq] at h
      subst h
      rw [assignAux, hf, List.getElem?_cons_zero]
      simp [occurrencesBefore]
    · rw [List.getElem?_cons_succ] at h
      rw [assignAux]
      rcases hu : u.fitid with _ | fid
      · rw [List.getElem?_cons_succ, ih (contentKey u :: seen) i t h hf]
        have hocc : occurrencesBefore (u :: rest) (i + 1) t
            = occurrencesBefore rest i t
              + (if contentKey u == contentKey t then 1 else 0) := by
          rw [occurrencesBefore, List.take_succ_cons, List.countP_cons, occurrencesBefore, hu]
          by_cases hc : contentKey u = contentKey t
          · rw [if_pos (by simp [hc]), if_pos (by simp [hc])]
          · rw [if_neg (by simp [hc]), if_neg (by simp [hc])]
        rw [hocc, List.count_cons]
        simp [Nat.add_assoc, Nat.add_comm, Nat.add_left_comm]
      · rw [List.getElem?_cons_succ, ih seen i t h hf]
        have hocc : occurrencesBefore (u :: rest) (i + 1) t = occurrencesBefore rest i t := by
          rw [occurrencesBefore, List.take_succ_cons, List.countP_cons, occurrencesBefore, hu]
          simp
        rw [hocc]

/-- An earlier same-content fingerprinted record makes the occurrence counter
strictly larger at the later position. -/
theorem occurrencesBefore_lt (ts : List NormalizedTransaction) {i j : Nat} (hij : i < j)
    {ti tj : NormalizedTransaction} (hi : ts[i]? = some ti) (hfi : ti.fitid = none)
    (hck : contentKey ti = contentKey tj) :
    occurrencesBefore ts i ti < occurrencesBefore ts j tj := by
  rw [occurrencesBefore, occurrencesBefore, hck]
  have hsplit : ts.take j = ts.take (i + 1) ++ (ts.drop (i + 1)).take (j - (i + 1)) := by
    rw [← List.take_add]
    congr 1
    omega
  rw [hsplit, List.countP_append, List.take_succ, hi, List.countP_append]
  have hone : List.countP (fun u => u.fitid == none && (contentKey u == contentKey tj))
      (some ti).toList = 1 := by
    simp [hfi, hck]
  rw [hone]
  omega

/-- Two same-content fingerprinted records at different positions receive
distinct import keys. -/
theorem assign_fingerprint_distinct (acct : String) (ts : List NormalizedTransaction)
    {i j : Nat} (hij : i < j) {ti tj : NormalizedTransaction}
    (hi : ts[i]? = some ti) (hj : ts[j]? = some tj)
    (hfi : ti.fitid = none) (hfj : tj.fitid = none)
    (hck : contentKey ti = contentKey tj) :
    ∀ ki kj, (assignImportIds acct ts)[i]? = some ki →
      (assignImportIds acct ts)[j]? = some kj → ki.importId ≠ kj.importId := by
  intro ki kj hki hkj
  rw [assignImportIds, assignAux_getElem? acct ts [] i ti hi hfi,
    Option.some.injEq] at hki
  rw [assignImportIds, assignAux_getElem? acct ts [] j tj hj hfj,
    Option.some.injEq] at hkj
  subst hki
  subst hkj
  intro heq
  simp only [ImportKey.fingerprint.injEq] at heq
  have hlt := occurrencesBefore_lt ts hij hi hfi hck
  have hocc := heq.2.2.2.2
  simp only [List.count_nil] at hocc
  omega

/-- The `seen` pool after the Import-ID Assigner has walked a batch. -/
def seenAfter (seen : List (String × Int × String)) :
    List NormalizedTransaction → List (String × Int × String)
  | [] => seen
  | t :: ts =>
    match t.fitid with
    | some _ => seenAfter seen ts
    | none => seenAfter (contentKey t :: seen) ts

theorem assignAux_append (acct : String) :
    ∀ (xs ys : List NormalizedTransaction) (seen : List (String × Int × String)),
    assignAux acct seen (xs ++ ys)
      = assignAux acct seen xs ++ assignAux acct (seenAfter seen xs) ys := by
  intro xs
  induction xs with
  | nil => intro ys seen; rfl
  | cons t rest ih =>
    intro ys seen
    cases ht : t.fitid with
    | none => simp only [List.cons_append, assignAux, seenAfter, ht, List.append_eq, ih]
    | some fid => simp only [List.cons_append, assignAux, seenAfter, ht, List.append_eq, ih]

theorem assignAux_length (acct : String) :
    ∀ (ts : List NormalizedTransaction) (seen : List (String × Int × String)),
    (assignAux acct seen ts).length = ts.length := by
  intro ts
  induction ts with
  | nil => intro seen; rfl
  | cons t rest ih =>
    intro seen
    cases ht : t.fitid with
    | none => simp only [assignAux, ht, List.length_cons, ih]
    | some fid => simp only [assignAux, ht, List.length_cons, ih]

/-- Appending later records to a file does not change the keys assigned to the
earlier ones — the key sequence is a deterministic function of the file's
content prefix, in file order. -/
theorem assignImportIds_stable (acct : String) (xs ys : List NormalizedTransaction) :
    (assignImportIds acct (xs ++ ys)).take xs.length = assignImportIds acct xs := by
  rw [assignImportIds, assignImportIds, assignAux_append acct xs ys []]
  rw [← assignAux_length acct xs []]
  exact List.take_left _ _

/-- When no ledger row can match (the keys are fresh and pairwise distinct),
every incoming transaction is inserted exactly once. -/
theorem reconcileFold_all_insert (sim : String → String → Bool) (acct : String) :
    ∀ (ts : List KeyedTransaction) (st : ReconcileState),
    ts.Pairwise (fun a b => a.importId ≠ b.importId) →
    (∀ r ∈ st.ledger, r.acct = acct →
      ∃ k, r.importId = some k ∧ ∀ t ∈ ts, k ≠ t.importId) →
    (ts.foldl (reconcileStep sim acct) st).added.length = st.added.length + ts.length := by
  intro ts
  induction ts with
  | nil => intro st _ _; simp
  | cons t rest ih =>
    intro st hpw hinv
    obtain ⟨hhead, hrest⟩ := List.pairwise_cons.mp hpw
    have hfe : st.ledger.find? (isExactMatch acct t.importId st.claimed) = none := by
      rw [List.find?_eq_none]
      intro r hr hmatch
      obtain ⟨hacct, hkey, _⟩ := isExactMatch_iff.mp hmatch
      obtain ⟨k, hk, hkne⟩ := hinv r hr hacct
      rw [hk] at hkey
      exact hkne t (List.mem_cons_self t rest) (Option.some.inj hkey)
    have hff : st.ledger.find? (isFuzzyMatch sim acct t st.claimed) = none := by
      rw [List.find?_eq_none]
      intro r hr hmatch
      obtain ⟨hacct, hknone, _⟩ := isFuzzyMatch_iff.mp hmatch
      obtain ⟨k, hk, _⟩ := hinv r hr hacct
      rw [hk] at hknone
      exact Option.noConfusion hknone
    have hstep : reconcileStep sim acct st t
        = { st with ledger := st.ledger ++ [newRow acct st.nextId t],
                    added := st.added ++ [st.nextId], nextId := st.nextId + 1 } := by
      rw [reconcileStep, hfe, hff]
    have hinv' : ∀ r ∈ (st.ledger ++ [newRow acct st.nextId t]), r.acct = acct →
        ∃ k, r.importId = some k ∧ ∀ u ∈ rest, k ≠ u.importId := by
      intro r hr hacct
      rcases List.mem_append.mp hr with h | h
      · obtain ⟨k, hk, hkne⟩ := hinv r h hacct
        exact ⟨k, hk, fun u hu => hkne u (List.mem_cons_of_mem t hu)⟩
      · simp only [List.mem_singleton] at h
        subst h
        exact ⟨t.importId, rfl, fun u hu => hhead u hu⟩
    rw [List.foldl_cons, hstep]
    rw [ih { st with ledger := st.ledger ++ [newRow acct st.nextId t],
                     added := st.added ++ [st.nextId], nextId := st.nextId + 1 } hrest hinv']
    simp only [List.length_append, List.length_cons, List.length_nil]
    omega

/-- C8.  Fingerprint disambiguation: a record lacking a source unique id gets
the fingerprint of `(accountId, date, amount, payee)` plus the occurrence
counter of identical earlier records (first occurrence 0, second 1, …, in
file order); two identical records therefore get distinct importIds; the key
sequence assigned to a file prefix does not depend on what follows it
(deterministic in content and order); and distinct-keyed transactions hitting
a ledger with no rows of the account are all inserted, each exactly once. -/
theorem fingerprint_disambiguation :
    (∀ (acct : String) (ts : List NormalizedTransaction) (i : Nat)
       (t : NormalizedTransaction), ts[i]? = some t → t.fitid = none →
       (assignImportIds acct ts)[i]?
         = some ⟨t, .fingerprint acct t.date t.amount t.payee (occurrencesBefore ts i t)⟩)
  ∧ (∀ (acct : String) (ts : List NormalizedTransaction) (i j : Nat)
       (ti tj : NormalizedTransaction) (ki kj : KeyedTransaction), i < j →
       ts[i]? = some ti → ts[j]? = some tj → ti.fitid = none → tj.fitid = none →
       contentKey ti = contentKey tj →
       (assignImportIds acct ts)[i]? = some ki → (assignImportIds acct ts)[j]? = some kj →
       ki.importId ≠ kj.importId)
  ∧ (∀ (acct : String) (xs ys : List NormalizedTransaction),
       (assignImportIds acct (xs ++ ys)).take xs.length = assignImportIds acct xs)
  ∧ (∀ (sim : String → String → Bool) (acct : String) (ts : List KeyedTransaction)
       (L : List LedgerRow), ts.Pairwise (fun a b => a.importId ≠ b.importId) →
       (∀ r ∈ L, r.acct ≠ acct) →
       (reconcileTransactions sim acct ts L).added.length = ts.length) := by
  refine ⟨?_, ?_, ?_, ?_⟩
  · intro acct ts i t hi hf
    rw [assignImportIds, assignAux_getElem? acct ts [] i t hi hf]
    simp only [List.count_nil, Nat.zero_add]
  · intro acct ts i j ti tj ki kj hij hi hj hfi hfj hck hki hkj
    exact assign_fingerprint_distinct acct ts hij hi hj hfi hfj hck ki kj hki hkj
  · intro acct xs ys
    exact assignImportIds_stable acct xs ys
  · intro sim acct ts L hpw hnone
    have h := reconcileFold_all_insert sim acct ts ⟨L, [], [], [], maxRowId L + 1⟩ hpw
      (fun r hr hacct => absurd hacct (hnone r hr))
    simpa using h

/-! ## Batch normalization is per-record -/

/-- Normalization distributes over batch concatenation: each record's outcome
is independent of the records around it, and errors accumulate in order. -/
theorem normalizeTransactions_append (dfmt : Option String) (imp : Bool) :
    ∀ (rs₁ rs₂ : List RawRecord),
    normalizeTransactions dfmt imp (rs₁ ++ rs₂)
      = ((normalizeTransactions dfmt imp rs₁).1 ++ (normalizeTransactions dfmt imp rs₂).1,
         (normalizeTransactions dfmt imp rs₁).2 ++ (normalizeTransactions dfmt imp rs₂).2) := by
  intro rs₁ rs₂
  induction rs₁ with
  | nil => simp [normalizeTransactions]
  | cons r rest ih =>
    cases hn : normalizeRecord dfmt imp r with
    | error e => simp [normalizeTransactions, hn, ih]
    | ok t => simp [normalizeTransactions, hn, ih]

/-- C7.  With a date pattern supplied, a record whose date parses strictly
against the pattern is normalized to the ISO `yyyy-MM-dd` form of the parsed
calendar date; with no pattern the source date is used as-is; a date that
fails to parse is a per-record error; and batch normalization treats each
record independently, so such an error is not fatal to the batch. -/
theorem date_pattern_normalization :
    (∀ (fmt : String) (imp : Bool) (r : RawRecord) (amt : Int) (dv : DateV),
       amountToInteger r.amount = some amt → parseDateWith fmt r.date = some dv →
       normalizeRecord (some fmt) imp r
         = .ok ⟨formatISO dv, amt, r.payee, r.payee,
             if imp then r.memo else none, r.fitid⟩)
  ∧ (∀ (imp : Bool) (r : RawRecord) (amt : Int),
       amountToInteger r.amount = some amt →
       normalizeRecord none imp r
         = .ok ⟨r.date, amt, r.payee, r.payee, if imp then r.memo else none, r.fitid⟩)
  ∧ (∀ (fmt : String) (imp : Bool) (r : RawRecord) (amt : Int),
       amountToInteger r.amount = some amt → parseDateWith fmt r.date = none →
       normalizeRecord (some fmt) imp r = .error ⟨"Invalid date: " ++ r.date⟩)
  ∧ (∀ (dfmt : Option String) (imp : Bool) (rs₁ rs₂ : List RawRecord),
       normalizeTransactions dfmt imp (rs₁ ++ rs₂)
         = ((normalizeTransactions dfmt imp rs₁).1
              ++ (normalizeTransactions dfmt imp rs₂).1,
            (normalizeTransactions dfmt imp rs₁).2
              ++ (normalizeTransactions dfmt imp rs₂).2)) := by
  refine ⟨?_, ?_, ?_, fun dfmt imp rs₁ rs₂ => normalizeTransactions_append dfmt imp rs₁ rs₂⟩
  · intro fmt imp r amt dv h1 h2
    simp only [normalizeRecord, h1, h2]
  · intro imp r amt h1
    simp only [normalizeRecord, h1]
  · intro fmt imp r amt h1 h2
    simp only [normalizeRecord, h1, h2]

/-- A record whose date fails the pattern, for the C7 witness. -/
def badDateRecord : RawRecord := ⟨"not-a-date", "-12.34", "P", none, none⟩

/-- A record whose date parses against `MM/dd/yy`, for the C7 witness. -/
def qifRecord : RawRecord := ⟨"03/02/21", "-12.34", "P", some "m", none⟩

/-- Witness for C7 at concrete records: the pattern case, the as-is case, the
per-record failure, and the batch independence. -/
theorem date_pattern_normalization_witness :
    (amountToInteger qifRecord.amount = some (-1234)
      ∧ parseDateWith "MM/dd/yy" qifRecord.date = some ⟨2021, 3, 2⟩
      ∧ normalizeRecord (some "MM/dd/yy") true qifRecord
          = .ok ⟨formatISO ⟨2021, 3, 2⟩, -1234, "P", "P", some "m", none⟩)
  ∧ normalizeRecord none true qifRecord = .ok ⟨"03/02/21", -1234, "P", "P", some "m", none⟩
  ∧ (parseDateWith "MM/dd/yy" badDateRecord.date = none
      ∧ normalizeRecord (some "MM/dd/yy") true badDateRecord
          = .error ⟨"Invalid date: " ++ badDateRecord.date⟩)
  ∧ normalizeTransactions (some "MM/dd/yy") true ([badDateRecord] ++ [qifRecord])
      = ((normalizeTransactions (some "MM/dd/yy") true [badDateRecord]).1
            ++ (normalizeTransactions (some "MM/dd/yy") true [qifRecord]).1,
         (normalizeTransactions (some "MM/dd/yy") true [badDateRecord]).2
            ++ (normalizeTransactions (some "MM/dd/yy") true [qifRecord]).2) :=
  ⟨⟨by decide, by decide,
      date_pattern_normalization.1 "MM/dd/yy" true qifRecord (-1234) ⟨2021, 3, 2⟩
        (by decide) (by decide)⟩,
   by simpa using date_pattern_normalization.2.1 true qifRecord (-1234) (by decide),
   ⟨by decide,
      date_pattern_normalization.2.2.1 "MM/dd/yy" true badDateRecord (-1234)
        (by decide) (by decide)⟩,
   date_pattern_normalization.2.2.2 (some "MM/dd/yy") true [badDateRecord] [qifRecord]⟩

/-! ## Unsupported formats -/

/-- C3.  A filename whose extension is not a supported format yields exactly
one error, with message `"Invalid file type"`, an empty added set, and an
unchanged ledger. -/
theorem invalid_file_type (env : FileFormat → ParserOutput) (sim : String → String → Bool)
    (acct fp : String) (dfmt : Option String) (imp : Bool) (L : List LedgerRow)
    (h : detectFormat fp = none) :
    importFileWithRealTime env sim acct fp dfmt imp L
      = (⟨[⟨"Invalid file type"⟩], []⟩, L) := by
  have hpf : parseFile env fp = ⟨[⟨"Invalid file type"⟩], []⟩ := by
    rw [parseFile, h]
  rw [importFileWithRealTime_eq, hpf]
  simp [normalizeTransactions]

/-- Witness for C3 at `foo.txt`, matching the src test at lines 178–181. -/
theorem invalid_file_type_witness :
    detectFormat "foo.txt" = none
      ∧ importFileWithRealTime sampleEnv (fun _ _ => false) "one" "foo.txt" none true []
          = (⟨[⟨"Invalid file type"⟩], []⟩, []) :=
  ⟨by decide,
    invalid_file_type sampleEnv (fun _ _ => false) "one" "foo.txt" none true [] (by decide)⟩

/-! ## Case-insensitive extension matching -/

/-- C5.  A filename whose last extension, lower-cased, names a supported
format selects that format's parser, whatever the rest of the filename
contains; the two exotic filenames from the src test (lines 161–177) are
detected; and on valid content (a parser reporting no errors, every record
normalizing) the import completes with zero errors. -/
theorem extension_matching :
    (∀ (name : String) (e : List Char) (fmt : FileFormat),
       lastExt name.data = some e → formatOfExt (toLowerL e) = some fmt →
       detectFormat name = some fmt)
  ∧ detectFormat "best.data-ever$.QFX" = some FileFormat.qfx
  ∧ detectFormat "big.data.QiF" = some FileFormat.qif
  ∧ (∀ (env : FileFormat → ParserOutput) (sim : String → String → Bool) (acct fp : String)
       (dfmt : Option String) (imp : Bool) (L : List LedgerRow) (fmt : FileFormat),
       detectFormat fp = some fmt → (env fmt).errors = [] →
       (normalizeTransactions dfmt imp (env fmt).transactions).1 = [] →
       (importFileWithRealTime env sim acct fp dfmt imp L).1.errors = []) := by
  refine ⟨?_, by decide, by decide, ?_⟩
  · intro name e fmt h1 h2
    simp only [detectFormat, h1, h2]
  · intro env sim acct fp dfmt imp L fmt h1 h2 h3
    have hpf : parseFile env fp = env fmt := by rw [parseFile, h1]
    rw [importFileWithRealTime_eq, hpf, h2, h3]
    simp

/-- Witness for C5: the universal part at the exotic QFX filename, and a
zero-error import of valid content through it. -/
theorem extension_matching_witness :
    (lastExt "best.data-ever$.QFX".data = some ['Q', 'F', 'X']
      ∧ formatOfExt (toLowerL ['Q', 'F', 'X']) = some FileFormat.qfx
      ∧ detectFormat "best.data-ever$.QFX" = some FileFormat.qfx)
  ∧ (importFileWithRealTime sampleEnv (fun _ _ => false) "one" "best.data-ever$.QFX"
      none true []).1.errors = [] :=
  ⟨⟨by decide, by decide,
      extension_matching.1 "best.data-ever$.QFX" ['Q', 'F', 'X'] FileFormat.qfx
        (by decide) (by decide)⟩,
   extension_matching.2.2.2 sampleEnv (fun _ _ => false) "one" "best.data-ever$.QFX"
     none true [] FileFormat.qfx (by decide) (by decide) (by decide)⟩

/-! ## Amount round trip -/

/-- C6.  `"-12.34"` normalizes to the integer `-1234` of minor units, and for
every well-formed amount string, reformatting its normalized integer parses
back to the same integer: the decimal value is reproduced. -/
theorem amount_round_trip :
    amountToInteger "-12.34" = some (-1234)
  ∧ (∀ (s : String) (n : Int), amountToInteger s = some n →
      amountToInteger (integerToAmount n) = some n) := by
  refine ⟨by decide, ?_⟩
  intro s n _
  show amountToIntegerL (integerToAmountL n) = some n
  exact amountToIntegerL_integerToAmountL n

/-- Witness for C6 at the spec's example amount. -/
theorem amount_round_trip_witness :
    amountToInteger "-12.34" = some (-1234)
      ∧ amountToInteger (integerToAmount (-1234)) = some (-1234) :=
  ⟨by decide, amount_round_trip.2 "-12.34" (-1234) (by decide)⟩

/-! ## Error short-circuit (src lines 66–68) -/

/-- C10.  When parsing returns a non-empty error list the import returns the
collected errors (the parse errors, followed by any per-record normalization
errors) with an empty added set, and the ledger is left untouched — the
reconciliation engine is never reached. -/
theorem errors_short_circuit (env : FileFormat → ParserOutput) (sim : String → String → Bool)
    (acct fp : String) (dfmt : Option String) (imp : Bool) (L : List LedgerRow)
    (h : (parseFile env fp).errors ≠ []) :
    importFileWithRealTime env sim acct fp dfmt imp L
      = (⟨(parseFile env fp).errors
            ++ (normalizeTransactions dfmt imp (parseFile env fp).transactions).1, []⟩, L) := by
  have hne : ((parseFile env fp).errors
      ++ (normalizeTransactions dfmt imp (parseFile env fp).transactions).1).isEmpty
        = false := by
    rcases hpe : (parseFile env fp).errors with _ | ⟨e, es⟩
    · exact absurd hpe h
    · rfl
  rw [importFileWithRealTime_eq, if_neg (by simp [hne])]

/-- A parser environment that always reports a parse error. -/
def errEnv : FileFormat → ParserOutput := fun _ => ⟨[⟨"parse fail"⟩], []⟩

/-- Witness for C10 at a failing parser: the error comes back verbatim, the
added set is empty, the ledger is unchanged. -/
theorem errors_short_circuit_witness :
    (parseFile errEnv "a.qfx").errors ≠ []
      ∧ importFileWithRealTime errEnv (fun _ _ => false) "one" "a.qfx" none true [sampleInsertedRow]
          = (⟨[⟨"parse fail"⟩], []⟩, [sampleInsertedRow]) :=
  ⟨by decide,
    by simpa using errors_short_circuit errEnv (fun _ _ => false) "one" "a.qfx" none true
          [sampleInsertedRow] (by decide)⟩

/-! ## Malformed records (C2) -/

/-- A parser environment yielding one malformed and one valid record. -/
def mixedEnv : FileFormat → ParserOutput := fun _ =>
  ⟨[], [⟨"2021-03-02", "xx", "Bad", none, none⟩,
        ⟨"2021-03-02", "-12.34", "Good", none, none⟩]⟩

/-- The same environment with only the valid record. -/
def goodOnlyEnv : FileFormat → ParserOutput := fun _ =>
  ⟨[], [⟨"2021-03-02", "-12.34", "Good", none, none⟩]⟩

/-- C2 counterexample.  A batch with one malformed and one valid record: the
malformed record is reported as the only error, but `added` is empty and the
ledger untouched — the valid record is *not* reconciled, although importing it
alone would add it.  This refutes the claim that reconciliation of the
remaining valid records still proceeds and that their identities appear in
the result. -/
theorem malformed_record_counterexample :
    (importFileWithRealTime mixedEnv (fun _ _ => false) "one" "a.qfx" none true []).1.errors.length
        = 1
  ∧ (importFileWithRealTime mixedEnv (fun _ _ => false) "one" "a.qfx" none true []).1.added = []
  ∧ (importFileWithRealTime mixedEnv (fun _ _ => false) "one" "a.qfx" none true []).2 = []
  ∧ (importFileWithRealTime goodOnlyEnv (fun _ _ => false) "one" "a.qfx" none true []).1.added
      ≠ [] := by
  refine ⟨by decide, by decide, by decide, by decide⟩

/-- C2 amended.  A malformed record is reported as a per-record error and
excluded from the normalized batch while the valid records around it are
still normalized unaffected; but whenever the import result carries any
error, its added set is empty and the ledger is unchanged: reconciliation of
the valid records does not proceed (src lines 66–68). -/
theorem malformed_record_semantics :
    (∀ (dfmt : Option String) (imp : Bool) (rs₁ rs₂ : List RawRecord) (r : RawRecord)
       (e : ImportError), normalizeRecord dfmt imp r = .error e →
       normalizeTransactions dfmt imp (rs₁ ++ r :: rs₂)
         = ((normalizeTransactions dfmt imp rs₁).1
              ++ e :: (normalizeTransactions dfmt imp rs₂).1,
            (normalizeTransactions dfmt imp rs₁).2
              ++ (normalizeTransactions dfmt imp rs₂).2))
  ∧ (∀ (env : FileFormat → ParserOutput) (sim : String → String → Bool) (acct fp : String)
       (dfmt : Option String) (imp : Bool) (L : List LedgerRow),
       (importFileWithRealTime env sim acct fp dfmt imp L).1.errors ≠ [] →
       (importFileWithRealTime env sim acct fp dfmt imp L).1.added = []
         ∧ (importFileWithRealTime env sim acct fp dfmt imp L).2 = L) := by
  constructor
  · intro dfmt imp rs₁ rs₂ r e he
    rw [normalizeTransactions_append]
    rw [show normalizeTransactions dfmt imp (r :: rs₂)
        = (e :: (normalizeTransactions dfmt imp rs₂).1,
           (normalizeTransactions dfmt imp rs₂).2) from by
      rw [normalizeTransactions, he]]
  · intro env sim acct fp dfmt imp L herr
    rw [importFileWithRealTime_eq] at herr ⊢
    by_cases hie : ((parseFile env fp).errors
        ++ (normalizeTransactions dfmt imp (parseFile env fp).transactions).1).isEmpty
    · rw [if_pos hie] at herr
      exact absurd rfl herr
    · rw [if_neg hie]
      exact ⟨rfl, rfl⟩

/-- Witness for the amended C2 at the mixed batch. -/
theorem malformed_record_semantics_witness :
    (normalizeRecord none true (⟨"2021-03-02", "xx", "Bad", none, none⟩ : RawRecord)
        = Except.error ⟨"Invalid amount: xx"⟩
      ∧ normalizeTransactions none true
          ([] ++ (⟨"2021-03-02", "xx", "Bad", none, none⟩ : RawRecord)
            :: [⟨"2021-03-02", "-12.34", "Good", none, none⟩])
          = ((normalizeTransactions none true []).1
              ++ ⟨"Invalid amount: xx"⟩ :: (normalizeTransactions none true
                    [⟨"2021-03-02", "-12.34", "Good", none, none⟩]).1,
             (normalizeTransactions none true []).2
              ++ (normalizeTransactions none true
                    [⟨"2021-03-02", "-12.34", "Good", none, none⟩]).2))
  ∧ ((importFileWithRealTime mixedEnv (fun _ _ => false) "one" "a.qfx" none true []).1.errors ≠ []
      ∧ (importFileWithRealTime mixedEnv (fun _ _ => false) "one" "a.qfx" none true []).1.added
          = []
      ∧ (importFileWithRealTime mixedEnv (fun _ _ => false) "one" "a.qfx" none true []).2 = []) :=
  ⟨⟨rfl,
      malformed_record_semantics.1 none true []
        [⟨"2021-03-02", "-12.34", "Good", none, none⟩]
        ⟨"2021-03-02", "xx", "Bad", none, none⟩ ⟨"Invalid amount: xx"⟩ rfl⟩,
   by
     have h := malformed_record_semantics.2 mixedEnv (fun _ _ => false) "one" "a.qfx" none true
       [] (by decide)
     exact ⟨by decide, h.1, h.2⟩⟩

/-- A batch of two identical fingerprinted records, for the C8 witness. -/
def dupBatchRaw : List NormalizedTransaction := [sampleTxA, sampleTxA]

/-- Witness for C8 at the duplicated batch: the occurrence counters, the
distinct keys, prefix determinism, and both records inserted. -/
theorem fingerprint_disambiguation_witness :
    (dupBatchRaw[0]? = some sampleTxA ∧ sampleTxA.fitid = none
      ∧ (assignImportIds "one" dupBatchRaw)[0]?
          = some ⟨sampleTxA, .fingerprint "one" sampleTxA.date sampleTxA.amount sampleTxA.payee
              (occurrencesBefore dupBatchRaw 0 sampleTxA)⟩)
  ∧ (⟨sampleTxA, .fingerprint "one" "2021-03-02" (-1234) "Coffee" 0⟩ : KeyedTransaction).importId
      ≠ (⟨sampleTxA, .fingerprint "one" "2021-03-02" (-1234) "Coffee" 1⟩
          : KeyedTransaction).importId
  ∧ (assignImportIds "one" ([sampleTxA] ++ [sampleTxB])).take 1 = assignImportIds "one" [sampleTxA]
  ∧ (reconcileTransactions (fun _ _ => false) "one" (assignImportIds "one" dupBatchRaw)
      []).added.length = (assignImportIds "one" dupBatchRaw).length :=
  ⟨⟨by decide, rfl,
      fingerprint_disambiguation.1 "one" dupBatchRaw 0 sampleTxA (by decide) rfl⟩,
   fingerprint_disambiguation.2.1 "one" dupBatchRaw 0 1 sampleTxA sampleTxA
     ⟨sampleTxA, .fingerprint "one" "2021-03-02" (-1234) "Coffee" 0⟩
     ⟨sampleTxA, .fingerprint "one" "2021-03-02" (-1234) "Coffee" 1⟩
     (by decide) (by decide) (by decide) rfl rfl rfl (by decide) (by decide),
   fingerprint_disambiguation.2.2.1 "one" [sampleTxA] [sampleTxB],
   fingerprint_disambiguation.2.2.2 (fun _ _ => false) "one"
     (assignImportIds "one" dupBatchRaw) [] (by decide) (by decide)⟩

end ActualImport
